import Mathlib

/-!
node-gammu-json — verification of the polling pipeline and reassembly engine

A shallow embedding of the library's core (`src/unnamed/part_000`): the
message data model, the inbound receive/reassembly pipeline, the outbound
transmit pipeline with its retry policy, the deletion pipeline, and option
initialization.  JavaScript objects are modelled as association lists with
string keys (insertion-ordered, replace-in-place on update), JavaScript
per-field dynamics (`undefined` / `false` / numbers / moment objects) as
small sum types, and code paths that throw as `Except`.
-/

namespace GammuJson

/-- A JavaScript runtime error: either a `TypeError` (e.g. calling a method
of a non-object) or an explicitly `throw`n `Error(msg)`. -/
inductive JsErr where
  | typeError (s : String)
  | error (s : String)

/-- External facts the library depends on: `moment(string)` parsing
(abstracted as an arbitrary string-to-instant function) and the current
time (`moment(undefined)` is "now"). -/
structure JsEnv where
  parse : String → Int
  now : Int

/-- The value of a `timestamp` / `smsc_timestamp` field: absent,
a raw string as delivered by the helper, or a parsed moment object
(an instant, modelled as an integer). -/
inductive JTime where
  | undef
  | raw (s : String)
  | mom (t : Int)

/-- The value of the `id` field: absent, a string id, or cleared to `false`. -/
inductive JId where
  | undef
  | str (s : String)
  | fls

/-- The value of the `segment` field: absent, a number, or cleared to `false`. -/
inductive JNum where
  | undef
  | num (n : Int)
  | fls

/-- The value of the `location` field: a numeric modem slot, `false`
(cleared by `_schedule_message_for_deletion`), or an array of locations
(set by composite materialization). -/
inductive JLoc where
  | num (n : Int)
  | fls
  | arr (ls : List JLoc)

/-- JavaScript truthiness of a timestamp value: `undefined` is falsy, a
string is falsy iff empty, a moment object is always truthy. -/
def jtTruthy : JTime → Bool
  | .undef => false
  | .raw s => s ≠ ""
  | .mom _ => true

/-- Coercion of a timestamp value to an instant, as `moment(x)` does when
`x` is passed as the argument of `isBefore`: a moment stays itself, a raw
string is parsed, `undefined` is the current time. -/
def jtCoerce (env : JsEnv) : JTime → Int
  | .mom t => t
  | .raw s => env.parse s
  | .undef => env.now

/-- `a.isBefore(b)` on timestamp fields.  Calling `.isBefore` on a raw
string or on `undefined` is a `TypeError` (only moment objects have the
method); a moment receiver coerces its argument. -/
def jtIsBefore (env : JsEnv) : JTime → JTime → Except JsErr Bool
  | .mom a, t => .ok (decide (a < jtCoerce env t))
  | .raw _, _ => .error (.typeError "isBefore is not a function")
  | .undef, _ => .error (.typeError "isBefore is not a function")

/-- JavaScript loose equality (`==`) restricted to the values an `id`
field can hold.  `undefined == undefined` and `false == false` are true,
`undefined == false` is false, and a string equals `false` when it
coerces to the number `0`: of the ids this library produces (joins
containing `-`, which coerce to `NaN`) only the empty string does, so
that is the modelled case. -/
def jeqId : JId → JId → Bool
  | .str a, .str b => a = b
  | .undef, .undef => true
  | .fls, .fls => true
  | .str a, .fls => a = ""
  | .fls, .str a => a = ""
  | _, _ => false

/-- `_.isNumber` on a `segment`-typed field. -/
def jnumIsNumber : JNum → Bool
  | .num _ => true
  | _ => false

/-- A JavaScript object used as a dictionary: an insertion-ordered list of
string keys and values.  `jset` replaces in place when the key exists and
appends otherwise, matching JS property-update semantics. -/
abbrev JIdx (α : Type) : Type := List (String × α)

/-- Property read: `obj[k]`, `undefined` (none) when absent. -/
def jget {α : Type} : JIdx α → String → Option α
  | [], _ => none
  | p :: rest, k => if p.1 = k then some p.2 else jget rest k

/-- Property write: `obj[k] = v` — replace in place when the key exists,
append otherwise. -/
def jset {α : Type} : JIdx α → String → α → JIdx α
  | [], k, v => [(k, v)]
  | p :: rest, k, v => if p.1 = k then (k, v) :: rest else p :: jset rest k v

/-- The list of keys of an object, in iteration order. -/
def jkeys {α : Type} (idx : JIdx α) : List String :=
  idx.map (·.1)

mutual

/-- String coercion of a location value used when it is taken as an object
key: numbers print in decimal, `false` prints as `"false"`, an array joins
its elements with commas (JS `Array.prototype.toString`). -/
def locKeyTop : JLoc → String
  | .num n => toString n
  | .fls => "false"
  | .arr ls => String.intercalate "," (locKeyList ls)

/-- `locKeyTop` mapped over the elements of a location array. -/
def locKeyList : List JLoc → List String
  | [] => []
  | l :: ls => locKeyTop l :: locKeyList ls

end

/-- The element list of a `location` field as iterated by
`_message_index_add`: an array yields its elements, anything else is
wrapped in a singleton. -/
def jlocElems : JLoc → List JLoc
  | .arr ls => ls
  | l => [l]

/-- A message record as it moves through the inbound pipeline
(the open JS object's fields; `from` is rendered as `sender`). -/
structure SMsg where
  location : JLoc
  sender : String
  content : String
  udh : Option Int
  segment : JNum
  total_segments : Int
  timestamp : JTime
  smsc_timestamp : JTime
  id : JId

/-- A message as stored in the queues: the record itself plus the `parts`
array (empty for single-part messages, the original segment records for a
reassembled composite). -/
structure QMsg where
  core : SMsg
  parts : List SMsg

/-- `_transform_received_message`: derive `id` for multi-part records and
parse a truthy `timestamp` into a moment.  (`smsc_timestamp` is left
untouched by the source.) -/
def transformReceivedMessage (env : JsEnv) (m : SMsg) : SMsg :=
  let m :=
    if m.total_segments > 1 then
      { m with id := .str (m.sender ++ "-" ++ toString (m.udh.getD 0) ++ "-"
          ++ toString m.total_segments) }
    else m
  if jtTruthy m.timestamp then { m with timestamp := .mom (jtCoerce env m.timestamp) }
  else m

/-- `_message_index_add`: bind every location of `m` (array elements, or
the sole location) to `m` in the index. -/
def messageIndexAdd (idx : JIdx QMsg) (m : QMsg) : JIdx QMsg :=
  (jlocElems m.core.location).foldl (fun a l => jset a (locKeyTop l) m) idx

/-- `_message_index_lookup`: read the index at the (string-coerced)
location of the record. -/
def messageIndexLookup (idx : JIdx QMsg) (m : SMsg) : Option QMsg :=
  jget idx (locKeyTop m.location)

/-- `_schedule_message_for_deletion`: bind the message into the deletion
index under each of its current locations, then clear its `location`
field to `false`.  The index stores a reference to the same object, so
the stored value also has the cleared `location`. -/
def scheduleMessageForDeletion (didx : JIdx QMsg) (m : QMsg) :
    JIdx QMsg × QMsg :=
  let cleared : QMsg := { m with core := { m.core with location := .fls } }
  ((jlocElems m.core.location).foldl
    (fun a l => jset a (locKeyTop l) cleared) didx, cleared)

/-- The result-processing tail of `_delete_messages`, given the helper's
`detail` reply: every indexed message whose location key did not come back
`"ok"` is re-added (keyed by its *current* `location` field) to a fresh
index, which replaces `deletion_index`.  An empty index returns early. -/
def deleteMessages (didx : JIdx QMsg) (detail : JIdx String) : JIdx QMsg :=
  if didx.isEmpty then didx
  else
    didx.foldl
      (fun und p =>
        if jget detail p.1 = some "ok" then und else messageIndexAdd und p.2)
      []

/-- The collection loop of `_create_message_deletion_args`, with `i` the
number of locations pushed so far. -/
def delArgsGo (dbs : Int) (i : Nat) : JIdx QMsg → List String
  | [] => []
  | p :: rest => if dbs ≤ (i : Int) + 1 then [] else p.1 :: delArgsGo dbs (i + 1) rest

/-- `_create_message_deletion_args`: collect locations from the deletion
index in iteration order, stopping once `delete_batch_size ≤ i + 1`. -/
def createMessageDeletionArgs (dbs : Int) (didx : JIdx QMsg) : List String :=
  delArgsGo dbs 0 didx

/-- An entry of `outbound_queue`, as pushed by `send` (the source field
`to` is rendered as `dest`, `to` being reserved in Lean). -/
structure OutItem where
  dest : String
  content : String
  tx_attempts : Int
  has_callback : Bool

/-- One element of the helper's reply to `send`. -/
structure TxResult where
  index : Int
  result : String

/-- Notifications dispatched to the embedder (handler invocations and
per-message callback invocations). -/
inductive Event where
  | receiveCall (q : QMsg)
  | receiveError
  | globalError
  | transmitOk (m : OutItem)
  | transmitErrorEvent (m : OutItem)
  | callbackOk (m : OutItem)
  | callbackError (m : OutItem)

/-- `_notify_transmit_error`: invoke the per-message callback with the
error (when present), then the `error` handler. -/
def notifyTransmitError (m : OutItem) : List Event :=
  (if m.has_callback then [Event.callbackError m] else []) ++ [Event.transmitErrorEvent m]

/-- `_notify_transmit`: invoke the per-message callback with `null`, then
the `transmit` handler.  (The `release_segments` branch is dead for
outbound items, which never carry an `id`.) -/
def notifyTransmit (m : OutItem) : List Event :=
  (if m.has_callback then [Event.callbackOk m] else []) ++ [Event.transmitOk m]

/-- The interleaving loop of `_create_message_transmission_args`, with `i`
the number of messages included so far. -/
def txArgsGo (tbs : Int) (i : Nat) : List OutItem → List String
  | [] => []
  | m :: rest =>
    if tbs ≤ (i : Int) + 1 then [] else m.dest :: m.content :: txArgsGo tbs (i + 1) rest

/-- `_create_message_transmission_args`: interleave `to` and `content` of
the queue's head items, stopping once `transmit_batch_size ≤ i + 1`. -/
def createMessageTransmissionArgs (tbs : Int) (msgs : List OutItem) : List String :=
  txArgsGo tbs 0 msgs

/-- The result loop of `_deliver_transmit_results`: walk the helper's
results, mutating the queue in place.  A failure either bumps
`tx_attempts` (`attempts = tx_attempts || 1`, then `attempts + 1`, taken
while `!limit || attempts < limit`) or fires `_notify_transmit_error`;
a success records the queue index as sent and fires `_notify_transmit`.
A result index with no queue entry is a `TypeError` (reading
`tx_attempts` of `undefined`). -/
def txProcess (limit : Int) :
    List TxResult → List OutItem → List Nat → List Event →
    Except JsErr (List OutItem × List Nat × List Event)
  | [], q, sent, evs => .ok (q, sent, evs)
  | r :: rest, q, sent, evs =>
    let qi : Int := r.index - 1
    if h : 0 ≤ qi ∧ qi.toNat < q.length then
      let message := q.get ⟨qi.toNat, h.2⟩
      if r.result ≠ "success" then
        let attempts : Int := if message.tx_attempts = 0 then 1 else message.tx_attempts
        if limit = 0 ∨ attempts < limit then
          txProcess limit rest
            (q.set qi.toNat { message with tx_attempts := attempts + 1 }) sent evs
        else
          txProcess limit rest q sent (evs ++ notifyTransmitError message)
      else
        txProcess limit rest q (sent ++ [qi.toNat]) (evs ++ notifyTransmit message)
    else .error (.typeError "cannot read property of undefined")

/-- `_deliver_transmit_results`: process all results, then replace the
outbound queue with the entries whose index was not marked sent. -/
def deliverTransmitResults (limit : Int) (queue : List OutItem)
    (results : List TxResult) : Except JsErr (List OutItem × List Event) :=
  match txProcess limit results queue [] [] with
  | .error e => .error e
  | .ok (q, sent, evs) =>
    .ok (((q.enum.filter (fun p => ¬ p.1 ∈ sent)).map (·.2)), evs)

/-- `send`: push a fresh outbound item (`tx_attempts` starts at 0) onto
the tail of the queue. -/
def sendMessage (queue : List OutItem) (dest content : String)
    (has_callback : Bool) : List OutItem :=
  queue ++ [{ dest := dest, content := content, tx_attempts := 0,
              has_callback := has_callback }]

/-- An operation on the outbound queue: a `send()` call or one transmit
phase with the helper's per-message results. -/
inductive QOp where
  | send (dest content : String) (has_callback : Bool)
  | phase (results : List TxResult)

/-- Run a sequence of `send` calls and transmit phases from a starting
queue, accumulating events. -/
def runOps (limit : Int) : List QOp → List OutItem → List Event →
    Except JsErr (List OutItem × List Event)
  | [], q, evs => .ok (q, evs)
  | .send d c cb :: rest, q, evs => runOps limit rest (sendMessage q d c cb) evs
  | .phase results :: rest, q, evs =>
    match deliverTransmitResults limit q results with
    | .error e => .error e
    | .ok (q', evs') => runOps limit rest q' (evs ++ evs')

/-- The object key a segment number is stored under in the reassembly
index (JS coerces the number to its decimal string). -/
def jnumKey : JNum → String
  | .num n => toString n
  | .undef => "undefined"
  | .fls => "false"

/-- The `is_valid` test of `_add_to_reassembly_index`: the candidate `m`
must loosely equal the trigger's `id`, carry a numeric `segment` no larger
than the trigger's `total_segments`, and carry the trigger's
`total_segments`.  (There is no lower bound on `segment`.) -/
def validFor (msg m : SMsg) : Bool :=
  jeqId m.id msg.id && jnumIsNumber m.segment &&
    (match m.segment with
     | .num n => decide (n ≤ msg.total_segments)
     | _ => false) &&
    decide (m.total_segments = msg.total_segments)

/-- `_add_to_reassembly_index`: validate the candidate `m` against the
trigger `msg` (matching `id`, numeric `segment` no larger than
`total_segments`, matching `total_segments`), then insert it into its
segment slot unless a strictly newer record already occupies it.
Returns the validity flag together with the (possibly updated) index;
comparing timestamps can throw when the occupant forces `.isBefore` on a
non-moment value. -/
def addToReassemblyIndex (env : JsEnv) (idx : JIdx SMsg) (msg m : SMsg) :
    Except JsErr (Bool × JIdx SMsg) :=
  if validFor msg m then
    match jget idx (jnumKey m.segment) with
    | some occupant =>
      match jtIsBefore env m.timestamp occupant.timestamp with
      | .error e => .error e
      | .ok b =>
        if b then .ok (true, idx)
        else .ok (true, jset idx (jnumKey m.segment) m)
    | none => .ok (true, jset idx (jnumKey m.segment) m)
  else .ok (false, idx)

/-- The segment loop of `_build_reassembly_index`, threading the index
through successive insertions (a thrown comparison aborts the loop). -/
def buildFold (env : JsEnv) (msg : SMsg) :
    List SMsg → JIdx SMsg → Except JsErr (JIdx SMsg)
  | [], idx => .ok idx
  | s :: rest, idx =>
    match addToReassemblyIndex env idx msg s with
    | .error e => .error e
    | .ok (_, idx') => buildFold env msg rest idx'

/-- `_build_reassembly_index`: insert every previously-received segment,
then the trigger message itself (last, so it wins timestamp ties). -/
def buildReassemblyIndex (env : JsEnv) (msg : SMsg) (segments : List SMsg) :
    Except JsErr (JIdx SMsg) :=
  match buildFold env msg segments [] with
  | .error e => .error e
  | .ok idx =>
    match addToReassemblyIndex env idx msg msg with
    | .error e => .error e
    | .ok (_, idx') => .ok idx'

/-- The timestamp-update step of composite materialization:
`if (rv[k] && rv[k].isBefore(segment[k])) rv[k] = segment[k]`. -/
def updTime (env : JsEnv) (cur new : JTime) : Except JsErr JTime :=
  if jtTruthy cur then
    match jtIsBefore env cur new with
    | .error e => .error e
    | .ok b => .ok (if b then new else cur)
  else .ok cur

/-- `rv.location.push(x)` during materialization (`rv.location` is always
an array there, having been initialised to `[]`). -/
def locPush : JLoc → JLoc → JLoc
  | .arr ls, l => .arr (ls ++ [l])
  | l₀, _ => l₀

/-- One iteration of the materialization loop at slot `i`: a missing slot
throws, otherwise concatenate the content, keep a reference in `parts`,
push the slot's location, and take the later of each timestamp field. -/
def createStep (env : JsEnv) (idx : JIdx SMsg) (rv : QMsg) (i : Int) :
    Except JsErr QMsg :=
  match jget idx (toString i) with
  | none => .error (.error "Reassembly failed; index is missing an entry")
  | some seg =>
    let c := rv.core
    match updTime env c.timestamp seg.timestamp with
    | .error e => .error e
    | .ok ts =>
      match updTime env c.smsc_timestamp seg.smsc_timestamp with
      | .error e => .error e
      | .ok sts =>
        let c' := { c with content := c.content ++ seg.content,
                           location := locPush c.location seg.location,
                           timestamp := ts, smsc_timestamp := sts }
        .ok { core := c', parts := rv.parts ++ [seg] }

/-- The materialization loop for slots `i, i+1, …` (`fuel` counts the
remaining iterations: `total_segments − 1` when starting at slot 2). -/
def createRange (env : JsEnv) (idx : JIdx SMsg) :
    Nat → Int → QMsg → Except JsErr QMsg
  | 0, _, rv => .ok rv
  | fuel + 1, i, rv =>
    match createStep env idx rv i with
    | .error e => .error e
    | .ok rv' => createRange env idx fuel (i + 1) rv'

/-- `_create_message_from_reassembly_index`: clone slot 1, clear `id`,
`location` and `segment`, seed `parts`/`location`/timestamps from slot 1,
then fold slots `2 … total_segments` in order. -/
def createMessageFromReassemblyIndex (env : JsEnv) (idx : JIdx SMsg) :
    Except JsErr QMsg :=
  match jget idx "1" with
  | none => .error (.error "Reassembly failed; index missing first entry")
  | some first =>
    let core0 := { first with id := JId.fls, location := JLoc.arr [first.location],
                              segment := JNum.fls }
    let rv : QMsg := { core := core0, parts := [first] }
    createRange env idx (first.total_segments - 1).toNat 2 rv

/-- The object key an `id` value is stored under in `segment_cache`. -/
def idKey : JId → String
  | .str s => s
  | .undef => "undefined"
  | .fls => "false"

/-- Which embedder handlers are registered.  The modelled embedder's
`receive_segment` handler appends the segment to its own store and always
succeeds; its `return_segments` handler returns every stored segment with
a matching `id`; its `receive` handler always accepts. -/
structure Emb where
  has_receive_segment : Bool
  has_return_segments : Bool
  has_receive : Bool

/-- The per-instance state touched by the receive pipeline, plus the
modelled embedder's persistent segment store. -/
structure PollSt where
  inbound_queue : List QMsg
  deletion_index : JIdx QMsg
  segment_cache : JIdx (List SMsg)
  embStore : List SMsg

/-- `_notify_receive_segment`: dispatch to the registered handler
(`should_delete = true`) or to `_default_receive_segment`, which appends
the segment to `segment_cache[id]` (`should_delete = false`). -/
def notifyReceiveSegment (emb : Emb) (st : PollSt) (m : SMsg) :
    PollSt × Bool :=
  if emb.has_receive_segment then
    ({ st with embStore := st.embStore ++ [m] }, true)
  else
    let prior := (jget st.segment_cache (idKey m.id)).getD []
    ({ st with segment_cache := jset st.segment_cache (idKey m.id) (prior ++ [m]) },
     false)

/-- `_request_return_segments`: the registered handler returns its stored
segments whose `id` matches; `_default_return_segments` returns
`segment_cache[id]`, which is `undefined` (`none`) on a cache miss. -/
def requestReturnSegments (emb : Emb) (st : PollSt) (id : JId) :
    Option (List SMsg) :=
  if emb.has_return_segments then
    some (st.embStore.filter (fun s => jeqId s.id id))
  else jget st.segment_cache (idKey id)

/-- `_try_to_reassemble_message`: fetch previously-stored peers, build the
reassembly index, and materialize the composite when every segment slot is
filled (`keys(index).length == total_segments`); `none` when parts are
still missing.  A missing peer array makes `_build_reassembly_index`
dereference `undefined` (a `TypeError`), and any throw inside the `try`
block surfaces as the error. -/
def tryToReassembleMessage (env : JsEnv) (emb : Emb) (st : PollSt)
    (m : SMsg) : Except JsErr (Option QMsg) :=
  match requestReturnSegments emb st m.id with
  | none => .error (.typeError "cannot read length of undefined")
  | some segments =>
    match buildReassemblyIndex env m segments with
    | .error e => .error e
    | .ok idx =>
      if ((jkeys idx).length : Int) = m.total_segments then
        match createMessageFromReassemblyIndex env idx with
        | .error e => .error e
        | .ok q => .ok (some q)
      else .ok none

/-- The per-record body of `_receive_messages`: transform, route
single-part records straight to `inbound_queue`, and drive the multi-part
waterfall (segment persistence, per-poll dedup lookup, optional deletion
scheduling, reassembly).  `reasmIdx` is the per-poll reassembly index;
errors surface as a per-record `receive` error event. -/
def processReceivedMessage (env : JsEnv) (emb : Emb)
    (acc : PollSt × JIdx QMsg × List Event) (m0 : SMsg) :
    PollSt × JIdx QMsg × List Event :=
  let (st, reasmIdx, evs) := acc
  let m := transformReceivedMessage env m0
  if m.total_segments ≤ 1 then
    ({ st with inbound_queue := st.inbound_queue ++ [{ core := m, parts := [] }] },
     reasmIdx, evs)
  else
    let (st, should_delete) := notifyReceiveSegment emb st m
    if (messageIndexLookup reasmIdx m).isSome then (st, reasmIdx, evs)
    else
      let (st, m) :=
        if should_delete then
          let (didx, cleared) :=
            scheduleMessageForDeletion st.deletion_index { core := m, parts := [] }
          ({ st with deletion_index := didx }, cleared.core)
        else (st, m)
      match tryToReassembleMessage env emb st m with
      | .error _ => (st, reasmIdx, evs ++ [Event.receiveError])
      | .ok none => (st, reasmIdx, evs)
      | .ok (some comp) =>
        ({ st with inbound_queue := st.inbound_queue ++ [comp] },
         messageIndexAdd reasmIdx comp, evs)

/-- The record loop of `_receive_messages`: clear `segment_cache`, start a
fresh per-poll reassembly index, and fold the helper's `retrieve` output. -/
def processAllReceived (env : JsEnv) (emb : Emb) (st : PollSt)
    (rv : List SMsg) : PollSt × JIdx QMsg × List Event :=
  rv.foldl (processReceivedMessage env emb)
    ({ st with segment_cache := [] }, [], [])

/-- `_deliver_incoming_messages`: offer each queued message to the
`receive` handler; on acceptance schedule all its locations for deletion,
on a missing handler emit a global error; finally clear `inbound_queue`. -/
def deliverIncomingMessages (emb : Emb) (st : PollSt) (evs : List Event) :
    PollSt × List Event :=
  let (st, evs) := st.inbound_queue.foldl
    (fun (acc : PollSt × List Event) q =>
      let (st, evs) := acc
      if emb.has_receive then
        let (didx, _) := scheduleMessageForDeletion st.deletion_index q
        ({ st with deletion_index := didx }, evs ++ [Event.receiveCall q])
      else (st, evs ++ [Event.globalError]))
    (st, evs)
  ({ st with inbound_queue := [] }, evs)

/-- `_receive_messages` for one poll, given the helper's `retrieve`
output: process every record, then deliver the inbound queue. -/
def receivePhase (env : JsEnv) (emb : Emb) (st : PollSt) (rv : List SMsg) :
    PollSt × List Event :=
  let (st, _, evs) := processAllReceived env emb st rv
  deliverIncomingMessages emb st evs

/-- The `create(options)` argument fields this development needs
(a missing option is `none`; `some 0` is a present-but-falsy number). -/
structure CreateOptions where
  interval : Option Int
  transmit_batch_size : Option Int
  delete_batch_size : Option Int
  max_transmit_attempts : Option Int

/-- The derived per-instance configuration. -/
structure Config where
  poll_interval : Int
  transmit_batch_size : Int
  delete_batch_size : Int
  tx_attempt_limit : Int

/-- JavaScript truthiness of an optional number (`undefined` and `0` are
falsy). -/
def numTruthy : Option Int → Bool
  | none => false
  | some n => n ≠ 0

/-- The option-processing part of `initialize`: `interval` and
`max_transmit_attempts` are taken when they are numbers (`_.isNumber`),
the batch sizes are taken when truthy (`options.x || default`). -/
def initConfig (options : CreateOptions) : Config :=
  { poll_interval := match options.interval with
      | some n => n * 1000
      | none => 5000,
    transmit_batch_size := if numTruthy options.transmit_batch_size then
        options.transmit_batch_size.getD 64 else 64,
    delete_batch_size := if numTruthy options.delete_batch_size then
        options.delete_batch_size.getD 1024 else 1024,
    tx_attempt_limit := match options.max_transmit_attempts with
      | some n => n
      | none => 2 }

/-! ## Proof-side predicates -/

/-- The instant carried by a record's (already-parsed) timestamp; `0` for
non-moment values (only ever used under all-moment hypotheses). -/
def tsv (m : SMsg) : Int :=
  match m.timestamp with
  | .mom t => t
  | _ => 0

/-- The effect of offering one candidate `c` to segment slot `k`, viewed
as a per-slot accumulator step: a valid candidate for this slot replaces
the occupant unless the occupant is strictly newer. -/
def slotStep (msg : SMsg) (k : String) (cur : Option SMsg) (c : SMsg) :
    Option SMsg :=
  if validFor msg c ∧ jnumKey c.segment = k then
    match cur with
    | none => some c
    | some e => if tsv c < tsv e then some e else some c
  else cur

/-- How one transmit phase may change an outbound item in place: identity
fields unchanged, `tx_attempts` non-decreasing, and a positive attempt
limit never exceeded once respected. -/
def txItemRel (limit : Int) (a b : OutItem) : Prop :=
  a.dest = b.dest ∧ a.content = b.content ∧ a.has_callback = b.has_callback ∧
  a.tx_attempts ≤ b.tx_attempts ∧
  (0 < limit → a.tx_attempts ≤ limit → b.tx_attempts ≤ limit)

/-- A queued message "carries a resolvable set of `location` values
covering all of its parts": a single-part record has its numeric modem
slot and no parts, a composite's location list is exactly its parts'
locations and each of those is a numeric modem slot. -/
def locationCovers (q : QMsg) : Prop :=
  ((∃ n, q.core.location = .num n) ∧ q.parts = []) ∨
  (q.core.location = .arr (q.parts.map (·.location)) ∧
    ∀ p ∈ q.parts, ∃ n, p.location = .num n)

/-! ## Concrete scenario data -/

/-- A concrete external environment (an arbitrary injective-enough
timestamp parse and a fixed current time). -/
def env0 : JsEnv := { parse := fun s => (s.length : Int), now := 0 }

/-- A fresh instance state. -/
def pollSt0 : PollSt :=
  { inbound_queue := [], deletion_index := [], segment_cache := [],
    embStore := [] }

/-- No `receive_segment` / `return_segments` handlers; a `receive`
handler is registered. -/
def embDefault : Emb :=
  { has_receive_segment := false, has_return_segments := false,
    has_receive := true }

/-- All of `receive_segment`, `return_segments` and `receive` registered. -/
def embPersist : Emb :=
  { has_receive_segment := true, has_return_segments := true,
    has_receive := true }

/-- Part 1 of a two-part message, at modem location 10. -/
def segA : SMsg :=
  { location := .num 10, sender := "+1", content := "Hello ", udh := some 7,
    segment := .num 1, total_segments := 2, timestamp := .raw "a",
    smsc_timestamp := .undef, id := .undef }

/-- Part 2 of the same message, at modem location 11. -/
def segB : SMsg :=
  { location := .num 11, sender := "+1", content := "world", udh := some 7,
    segment := .num 2, total_segments := 2, timestamp := .raw "ab",
    smsc_timestamp := .undef, id := .undef }

/-- `segA` after `_transform_received_message` under `env0`. -/
def segA' : SMsg := { segA with timestamp := .mom 1, id := .str "+1-7-2" }

/-- `segB` after `_transform_received_message` under `env0`. -/
def segB' : SMsg := { segB with timestamp := .mom 2, id := .str "+1-7-2" }

/-- The composite reassembled from `segA'` and `segB'` with the default
(in-memory) segment store. -/
def compC3 : QMsg :=
  let core := { segA' with location := JLoc.arr [.num 10, .num 11],
                           content := "Hello world", segment := JNum.fls,
                           id := JId.fls, timestamp := JTime.mom 2 }
  { core := core, parts := [segA', segB'] }

/-- A single-part inbound message at the given modem location. -/
def qm (loc : Int) (content : String) : QMsg :=
  { core := { location := .num loc, sender := "+1", content := content,
              udh := none, segment := .num 1, total_segments := 1,
              timestamp := .raw "t", smsc_timestamp := .undef, id := .undef },
    parts := [] }

/-- A deletion index holding modem locations 1, 2 and 3, built by
scheduling three delivered single-part messages. -/
def didxC1 : JIdx QMsg :=
  (scheduleMessageForDeletion
    (scheduleMessageForDeletion
      (scheduleMessageForDeletion [] (qm 1 "a")).1 (qm 2 "b")).1
    (qm 3 "c")).1

/-- The helper's `delete` verdicts: locations 1 and 3 deleted, 2 failed. -/
def detailC1 : JIdx String := [("1", "ok"), ("2", "fail"), ("3", "ok")]

/-- A fresh outbound item with a per-message callback. -/
def itemC2 : OutItem :=
  { dest := "+1", content := "x", tx_attempts := 0, has_callback := true }

/-- The same item after its first failed transmission attempt. -/
def itemC2' : OutItem := { itemC2 with tx_attempts := 2 }

/-- Part 1 of a two-part message whose helper record carried an
`smsc_timestamp` (left unparsed by the transform). -/
def partS1 : SMsg :=
  { segA' with smsc_timestamp := .raw "13-01-01 10:00:00" }

/-- Part 2 of the same message, also carrying an `smsc_timestamp`. -/
def partS2 : SMsg :=
  { segB' with smsc_timestamp := .raw "13-01-01 10:00:05" }

/-- The trigger segment for the validation scenarios. -/
def trigC5 : SMsg :=
  { location := .num 20, sender := "+2", content := "x", udh := some 1,
    segment := .num 1, total_segments := 2, timestamp := .mom 5,
    smsc_timestamp := .undef, id := .str "+2-1-2" }

/-- A candidate that matches the trigger's `id` and `total_segments` but
carries segment number 0. -/
def candSeg0 : SMsg :=
  { trigC5 with location := .num 21, segment := .num 0, content := "y" }

/-- A candidate that matches the trigger's `id` and `total_segments` but
carries segment number −3. -/
def candNeg : SMsg :=
  { trigC5 with location := .num 22, segment := .num (-3), content := "z" }

/-- An older duplicate copy of the trigger scenario's segment 1. -/
def dupOld : SMsg := { trigC5 with timestamp := .mom 1, location := .num 23 }

/-- A newer duplicate copy of the same segment. -/
def dupNew : SMsg := { trigC5 with timestamp := .mom 3, location := .num 24 }

/-- `segB'` as mutated by `_schedule_message_for_deletion` (its location
cleared while it sat in the deletion index). -/
def segBCleared : SMsg := { segB' with location := .fls }

/-- The composite produced when a registered `receive_segment` handler
persisted both parts (`should_delete = true`): the trigger copy of part 2
won its slot after its `location` was cleared. -/
def compBad : QMsg :=
  let core := { segA' with location := JLoc.arr [.num 10, .fls],
                           content := "Hello world", segment := JNum.fls,
                           id := JId.fls, timestamp := JTime.mom 2 }
  { core := core, parts := [segA', segBCleared] }

/-! ## Theorems -/

/-- Claim C1 — Contrary to the claim, a location whose verdict is not
`"ok"` does *not* survive under its original key: scheduling cleared the
indexed record's `location` to `false`, so the retained entry is re-keyed
under `"false"`.  Starting from `deletion_index` with locations
`{1,2,3}` and verdicts `{1: ok, 2: fail, 3: ok}`, the phase ends with the
index holding the location-2 message under the key `"false"` instead of
an entry keyed `2`. -/
theorem delete_partial_success_requeues_under_false_key :
    jkeys didxC1 = ["1", "2", "3"] ∧
    deleteMessages didxC1 detailC1 =
      [("false", { core := { (qm 2 "b").core with location := .fls }, parts := [] })] :=
  ⟨rfl, rfl⟩

/-- Claim C2 — With `max_transmit_attempts = 2`, the first failure bumps
`tx_attempts` to 2 with no events; the second failure emits one
`TransmitError` and invokes the per-message callback with the error, but —
contrary to the claim — the item is still present in the rebuilt
`outbound_queue`, and a third failing phase emits the events again. -/
theorem retry_limit_item_never_removed :
    deliverTransmitResults 2 [itemC2] [⟨1, "failure"⟩] = .ok ([itemC2'], []) ∧
    deliverTransmitResults 2 [itemC2'] [⟨1, "failure"⟩] =
      .ok ([itemC2'], [.callbackError itemC2', .transmitErrorEvent itemC2']) ∧
    deliverTransmitResults 2 [itemC2'] [⟨1, "failure"⟩] ≠ .ok ([], [.callbackError itemC2', .transmitErrorEvent itemC2']) := by
  refine ⟨rfl, rfl, fun h => ?_⟩
  rw [show deliverTransmitResults 2 [itemC2'] [⟨1, "failure"⟩]
        = .ok ([itemC2'], [.callbackError itemC2', .transmitErrorEvent itemC2']) from rfl] at h
  have h1 := congrArg (fun x => (Prod.fst x).length) (Except.ok.inj h)
  simp at h1

/-- Claim C3 — With the built-in segment store: poll 1 (`retrieve` yields
only segment 1) delivers nothing and schedules nothing for deletion;
poll 2 (`retrieve` yields segment 2 beside the still-stored segment 1)
invokes the `receive` handler exactly once with the reassembled composite
and queues both part locations, 10 and 11, for deletion. -/
theorem two_poll_reassembly_default_store :
    (receivePhase env0 embDefault pollSt0 [segA]).2 = [] ∧
    (receivePhase env0 embDefault pollSt0 [segA]).1.inbound_queue = [] ∧
    (receivePhase env0 embDefault pollSt0 [segA]).1.deletion_index = [] ∧
    (receivePhase env0 embDefault
        (receivePhase env0 embDefault pollSt0 [segA]).1 [segA, segB]).2
      = [Event.receiveCall compC3] ∧
    jkeys (receivePhase env0 embDefault
        (receivePhase env0 embDefault pollSt0 [segA]).1 [segA, segB]).1.deletion_index
      = ["10", "11"] :=
  ⟨rfl, rfl, rfl, rfl, rfl⟩

/-- Claim C4 — Materialization concatenates contents in slot order, collects
the ordered locations and part references, clears `segment` and `id`, and
takes the latest `timestamp` — but contrary to the claim,
`_transform_received_message` never parses `smsc_timestamp`, so whenever
the parts carry one, the materialization loop calls `.isBefore` on a raw
string and throws a `TypeError` instead of computing the latest value. -/
theorem materialization_throws_on_unparsed_smsc_timestamp :
    createMessageFromReassemblyIndex env0 [("1", segA'), ("2", segB')] = .ok compC3 ∧
    (transformReceivedMessage env0 { partS1 with timestamp := .raw "a" }).smsc_timestamp
      = .raw "13-01-01 10:00:00" ∧
    createMessageFromReassemblyIndex env0 [("1", partS1), ("2", partS2)] =
      .error (.typeError "isBefore is not a function") :=
  ⟨rfl, rfl, rfl⟩

/-- Claim C5, counterexample — A candidate with segment number 0 (matching
`id` and `total_segments`) is *not* rejected: insertion returns `true`
and stores the record under slot key `"0"`, refuting the claimed lower
bound of the validation range. -/
theorem segment_zero_candidate_accepted :
    addToReassemblyIndex env0 [] trigC5 candSeg0 = .ok (true, [("0", candSeg0)]) ∧
    addToReassemblyIndex env0 [] trigC5 candSeg0 ≠ .ok (false, []) := by
  refine ⟨rfl, fun h => ?_⟩
  rw [show addToReassemblyIndex env0 [] trigC5 candSeg0
        = .ok (true, [("0", candSeg0)]) from rfl] at h
  exact Bool.noConfusion (congrArg (fun x => Prod.fst x) (Except.ok.inj h))

/-- Claim C7, counterexample — With a registered `receive_segment` handler
that persists every segment (`should_delete = true`), the composite
reassembled in the same poll sits in `inbound_queue` with its part-2
location entry cleared to `false` (the trigger copy, whose location was
moved into the deletion index, won its slot): the queued message does not
carry a resolvable location set covering all its parts. -/
theorem queued_composite_with_unresolvable_location :
    (processAllReceived env0 embPersist pollSt0 [segA, segB]).1.inbound_queue
      = [compBad] ∧
    ¬ locationCovers compBad := by
  refine ⟨rfl, fun h => ?_⟩
  rcases h with ⟨⟨n, hn⟩, -⟩ | ⟨-, hall⟩
  · rw [show compBad.core.location = JLoc.arr [.num 10, .fls] from rfl] at hn
    cases hn
  · obtain ⟨n, hn⟩ := hall segBCleared (by simp [compBad, segBCleared])
    rw [show segBCleared.location = JLoc.fls from rfl] at hn
    cases hn

/-- The interleaving loop of transmit-batch construction yields exactly
the head `transmit_batch_size − 1` items. -/
theorem txArgsGo_eq (tbs : Int) : ∀ (l : List OutItem) (i : Nat),
    txArgsGo tbs i l
      = (l.take ((tbs - 1).toNat - i)).flatMap (fun m => [m.dest, m.content])
  | [], i => by simp [txArgsGo]
  | m :: rest, i => by
    by_cases h : tbs ≤ (i : Int) + 1
    · have h0 : (tbs - 1).toNat - i = 0 := by omega
      simp only [txArgsGo, if_pos h, h0, List.take_zero, List.flatMap_nil]
    · have h1 : (tbs - 1).toNat - i = ((tbs - 1).toNat - (i + 1)) + 1 := by omega
      simp only [txArgsGo, if_neg h, h1, List.take_succ_cons, List.flatMap_cons,
        txArgsGo_eq tbs rest (i + 1)]
      rfl

/-- The collection loop of delete-batch construction yields exactly the
first `delete_batch_size − 1` index keys. -/
theorem delArgsGo_eq (dbs : Int) : ∀ (l : JIdx QMsg) (i : Nat),
    delArgsGo dbs i l = (l.take ((dbs - 1).toNat - i)).map Prod.fst
  | [], i => by simp [delArgsGo]
  | p :: rest, i => by
    by_cases h : dbs ≤ (i : Int) + 1
    · have h0 : (dbs - 1).toNat - i = 0 := by omega
      simp only [delArgsGo, if_pos h, h0, List.take_zero, List.map_nil]
    · have h1 : (dbs - 1).toNat - i = ((dbs - 1).toNat - (i + 1)) + 1 := by omega
      simp only [delArgsGo, if_neg h, h1, List.take_succ_cons, List.map_cons,
        delArgsGo_eq dbs rest (i + 1)]

/-- Interleaving `to`/`content` doubles the item count. -/
theorem pairs_length (l : List OutItem) :
    (l.flatMap (fun m => [m.dest, m.content])).length = 2 * l.length := by
  induction l with
  | nil => simp
  | cons m rest ih => simp [ih]; omega

/-- Claim C9 — The transmit batch is exactly the head
`transmit_batch_size − 1` queue items with `to` and `content` interleaved
in queue order (hence at most `2·(transmit_batch_size − 1)` arguments),
and the delete batch is exactly the first `delete_batch_size − 1`
locations of the deletion index in iteration order. -/
theorem batch_caps_one_less_than_size (tbs dbs : Int) (msgs : List OutItem)
    (didx : JIdx QMsg) :
    createMessageTransmissionArgs tbs msgs
      = (msgs.take (tbs - 1).toNat).flatMap (fun m => [m.dest, m.content]) ∧
    createMessageDeletionArgs dbs didx = (jkeys didx).take (dbs - 1).toNat ∧
    (createMessageTransmissionArgs tbs msgs).length ≤ 2 * (tbs - 1).toNat ∧
    (createMessageDeletionArgs dbs didx).length ≤ (dbs - 1).toNat := by
  have ht := txArgsGo_eq tbs msgs 0
  have hd := delArgsGo_eq dbs didx 0
  rw [Nat.sub_zero] at ht hd
  have hteq : createMessageTransmissionArgs tbs msgs
      = (msgs.take (tbs - 1).toNat).flatMap (fun m => [m.dest, m.content]) := ht
  have hdeq : createMessageDeletionArgs dbs didx
      = (jkeys didx).take (dbs - 1).toNat := by
    rw [createMessageDeletionArgs, hd, jkeys, List.map_take]
  refine ⟨hteq, hdeq, ?_, ?_⟩
  · rw [hteq, pairs_length]
    have := List.length_take ((tbs - 1).toNat) msgs
    omega
  · rw [hdeq]
    simp [List.length_take]

/-- Claim C10 — A falsy (`0` or absent) `transmit_batch_size` or
`delete_batch_size` is silently replaced by its default (64 / 1024), and
neither batch size can ever be configured to zero; `max_transmit_attempts`
is taken through a number-type test, so an explicit `0` (unlimited
retries) is honored. -/
theorem falsy_batch_sizes_defaulted_zero_attempt_limit_honored
    (o : CreateOptions) :
    ((o.transmit_batch_size = none ∨ o.transmit_batch_size = some 0) →
      (initConfig o).transmit_batch_size = 64) ∧
    ((o.delete_batch_size = none ∨ o.delete_batch_size = some 0) →
      (initConfig o).delete_batch_size = 1024) ∧
    (initConfig o).transmit_batch_size ≠ 0 ∧
    (initConfig o).delete_batch_size ≠ 0 ∧
    (∀ n, o.max_transmit_attempts = some n → (initConfig o).tx_attempt_limit = n) ∧
    (o.max_transmit_attempts = none → (initConfig o).tx_attempt_limit = 2) := by
  refine ⟨?_, ?_, ?_, ?_, ?_, ?_⟩
  · rintro (h | h) <;> simp [initConfig, numTruthy, h]
  · rintro (h | h) <;> simp [initConfig, numTruthy, h]
  · cases ho : o.transmit_batch_size with
    | none => simp [initConfig, numTruthy, ho]
    | some n =>
      by_cases hn : n = 0
      · simp [initConfig, numTruthy, ho, hn]
      · simp [initConfig, numTruthy, ho, hn]
  · cases ho : o.delete_batch_size with
    | none => simp [initConfig, numTruthy, ho]
    | some n =>
      by_cases hn : n = 0
      · simp [initConfig, numTruthy, ho, hn]
      · simp [initConfig, numTruthy, ho, hn]
  · intro n h
    simp [initConfig, h]
  · intro h
    simp [initConfig, h]

/-- Witness for C10: with all three options explicitly `0`, the batch
sizes fall back to their defaults while the attempt limit is honored as
`0`. -/
theorem falsy_batch_sizes_defaulted_zero_attempt_limit_honored_witness :
    (initConfig { interval := none, transmit_batch_size := some 0,
                  delete_batch_size := some 0,
                  max_transmit_attempts := some 0 }).transmit_batch_size = 64 ∧
    (initConfig { interval := none, transmit_batch_size := some 0,
                  delete_batch_size := some 0,
                  max_transmit_attempts := some 0 }).delete_batch_size = 1024 ∧
    (initConfig { interval := none, transmit_batch_size := some 0,
                  delete_batch_size := some 0,
                  max_transmit_attempts := some 0 }).tx_attempt_limit = 0 :=
  ⟨(falsy_batch_sizes_defaulted_zero_attempt_limit_honored _).1 (Or.inr rfl),
    (falsy_batch_sizes_defaulted_zero_attempt_limit_honored _).2.1 (Or.inr rfl),
    (falsy_batch_sizes_defaulted_zero_attempt_limit_honored _).2.2.2.2.1 0 rfl⟩

/-- The candidate-validation test fails exactly on: mismatched `id`,
non-numeric `segment`, `segment` above `total_segments`, or mismatched
`total_segments` — with no lower bound on `segment`. -/
theorem validFor_false_iff (msg m : SMsg) :
    validFor msg m = false ↔
      (jeqId m.id msg.id = false ∨ jnumIsNumber m.segment = false ∨
        (∃ n, m.segment = .num n ∧ msg.total_segments < n) ∨
        m.total_segments ≠ msg.total_segments) := by
  cases hseg : m.segment with
  | undef => simp [validFor, jnumIsNumber, hseg]
  | fls => simp [validFor, jnumIsNumber, hseg]
  | num n =>
    simp only [validFor, jnumIsNumber, hseg, Bool.and_eq_false_iff]
    constructor
    · rintro (((h | h) | h) | h)
      · exact Or.inl h
      · exact absurd h (by simp)
      · refine Or.inr (Or.inr (Or.inl ⟨n, rfl, ?_⟩))
        simpa using h
      · refine Or.inr (Or.inr (Or.inr ?_))
        simpa using h
    · rintro (h | h | ⟨k, hk, hlt⟩ | h)
      · exact Or.inl (Or.inl (Or.inl h))
      · simp [jnumIsNumber] at h
      · cases hk
        exact Or.inl (Or.inr (by simpa using hlt))
      · exact Or.inr (by simpa using h)

/-- Insertion reports `false` with the index unchanged exactly when the
candidate fails validation. -/
theorem add_false_iff (env : JsEnv) (idx : JIdx SMsg) (msg m : SMsg) :
    addToReassemblyIndex env idx msg m = .ok (false, idx) ↔
      validFor msg m = false := by
  constructor
  · intro h
    by_cases hv : validFor msg m
    · exfalso
      cases hjget : jget idx (jnumKey m.segment) with
      | none => simp [addToReassemblyIndex, hv, hjget] at h
      | some e =>
        cases hb : jtIsBefore env m.timestamp e.timestamp with
        | error er => simp [addToReassemblyIndex, hv, hjget, hb] at h
        | ok b => cases b <;> simp_all [addToReassemblyIndex, hv, hjget, hb]
    · simpa using hv
  · intro h
    rw [addToReassemblyIndex, if_neg (by simp [h])]

/-- Claim C5, amended — A candidate is rejected (returns `false`, index
unchanged) exactly when its `id` differs from the trigger's, its
`segment` is not a number or *exceeds* `total_segments`, or its
`total_segments` differs from the trigger's; there is no lower bound, so
a numeric `segment` of 0 or below that meets the other conditions is
accepted and inserted into its slot. -/
theorem reassembly_validation_no_lower_bound (env : JsEnv) (idx : JIdx SMsg)
    (msg m : SMsg) :
    (addToReassemblyIndex env idx msg m = .ok (false, idx) ↔
      (jeqId m.id msg.id = false ∨ jnumIsNumber m.segment = false ∨
        (∃ n, m.segment = .num n ∧ msg.total_segments < n) ∨
        m.total_segments ≠ msg.total_segments)) ∧
    (∀ n, m.segment = .num n → n ≤ msg.total_segments →
      jeqId m.id msg.id = true → m.total_segments = msg.total_segments →
      jget idx (jnumKey m.segment) = none →
      addToReassemblyIndex env idx msg m
        = .ok (true, jset idx (jnumKey m.segment) m)) := by
  constructor
  · rw [add_false_iff]
    exact validFor_false_iff msg m
  · intro n hseg hle hid htot hnone
    have hv : validFor msg m = true := by
      simp [validFor, hseg, jnumIsNumber, hid, hle, htot]
    rw [addToReassemblyIndex, if_pos hv, hnone]

/-- Witness for the amended C5: a candidate with segment number −3
(matching `id` and `total_segments`, empty slot) is accepted and stored. -/
theorem reassembly_validation_no_lower_bound_witness :
    candNeg.segment = .num (-3) ∧ (-3 : Int) ≤ trigC5.total_segments ∧
    addToReassemblyIndex env0 [] trigC5 candNeg
      = .ok (true, jset [] (jnumKey candNeg.segment) candNeg) :=
  ⟨rfl, by decide,
    (reassembly_validation_no_lower_bound env0 [] trigC5 candNeg).2 (-3) rfl
      (by decide) (by decide) (by decide) rfl⟩

/-- `txItemRel` is reflexive. -/
theorem txItemRel_refl (limit : Int) (a : OutItem) : txItemRel limit a a :=
  ⟨rfl, rfl, rfl, le_refl _, fun _ h => h⟩

/-- `txItemRel` is transitive. -/
theorem txItemRel_trans {limit : Int} {a b c : OutItem}
    (h1 : txItemRel limit a b) (h2 : txItemRel limit b c) : txItemRel limit a c :=
  ⟨h1.1.trans h2.1, h1.2.1.trans h2.2.1, h1.2.2.1.trans h2.2.2.1,
    h1.2.2.2.1.trans h2.2.2.2.1,
    fun hl ha => h2.2.2.2.2 hl (h1.2.2.2.2 hl ha)⟩

/-- The result loop preserves queue length and relates every queue slot
to its original item by `txItemRel`. -/
theorem txProcess_pointwise (limit : Int) :
    ∀ (results : List TxResult) (q : List OutItem) (sent : List Nat)
      (evs : List Event) (q' : List OutItem) (sent' : List Nat) (evs' : List Event),
      txProcess limit results q sent evs = .ok (q', sent', evs') →
      q'.length = q.length ∧
      (∀ (i : Nat) (a b : OutItem),
        q[i]? = some a → q'[i]? = some b → txItemRel limit a b)
  | [], q, sent, evs, q', sent', evs', h => by
    rw [txProcess] at h
    have hq : q = q' := congrArg (fun x => x.1) (Except.ok.inj h)
    subst hq
    exact ⟨rfl, fun i a b h1 h2 => by
      rw [h1] at h2; cases h2; exact txItemRel_refl _ _⟩
  | r :: rest, q, sent, evs, q', sent', evs', h => by
    rw [txProcess] at h
    simp only [] at h
    split at h
    case isTrue hidx =>
      split at h
      case isTrue hres =>
        by_cases hlim : limit = 0 ∨
            (if (q.get ⟨(r.index - 1).toNat, hidx.2⟩).tx_attempts = 0 then 1
             else (q.get ⟨(r.index - 1).toNat, hidx.2⟩).tx_attempts) < limit
        · rw [if_pos hlim] at h
          obtain ⟨hlen, hrel⟩ := txProcess_pointwise limit rest _ _ _ _ _ _ h
          rw [List.length_set] at hlen
          refine ⟨hlen, fun i a b h1 h2 => ?_⟩
          by_cases hik : (r.index - 1).toNat = i
          · subst hik
            set k := (r.index - 1).toNat with hk
            set message := q.get ⟨k, hidx.2⟩ with hmsg
            set v : OutItem := { message with tx_attempts :=
              (if message.tx_attempts = 0 then 1 else message.tx_attempts) + 1 }
              with hv
            have ha : a = message := by
              have hg := List.getElem?_eq_getElem hidx.2
              rw [h1] at hg
              rw [hmsg, List.get_eq_getElem]
              exact Option.some.inj hg
            have hsome : (q.set k v)[k]? = some v := by
              rw [List.getElem?_set]
              simp [hidx.2]
            refine txItemRel_trans (b := v) ?_ (hrel k v b hsome h2)
            subst ha
            refine ⟨rfl, rfl, rfl, ?_, ?_⟩
            · simp only [hv]
              split <;> omega
            · intro hl hb
              rcases hlim with h0 | hlt
              · omega
              · simp only [hv]
                split at hlt <;> omega
          · refine hrel i a b ?_ h2
            rw [List.getElem?_set, if_neg hik]
            exact h1
        · rw [if_neg hlim] at h
          exact txProcess_pointwise limit rest _ _ _ _ _ _ h
      case isFalse hres =>
        exact txProcess_pointwise limit rest _ _ _ _ _ _ h
    case isFalse hidx =>
      cases h

/-- Every item surviving a transmit phase descends from a queue item via
`txItemRel`. -/
theorem deliverTransmitResults_rel (limit : Int) (q : List OutItem)
    (results : List TxResult) (q' : List OutItem) (evs : List Event)
    (h : deliverTransmitResults limit q results = .ok (q', evs)) :
    ∀ m' ∈ q', ∃ m ∈ q, txItemRel limit m m' := by
  rw [deliverTransmitResults] at h
  split at h
  · cases h
  case h_2 u sent evs0 heq =>
    obtain ⟨hq', -⟩ : q' = _ ∧ evs = evs0 := by
      have := Except.ok.inj h
      exact ⟨(congrArg Prod.fst this).symm, (congrArg Prod.snd this).symm⟩
    obtain ⟨hlen, hrel⟩ := txProcess_pointwise limit results q [] [] u sent evs0 heq
    intro m' hm'
    rw [hq'] at hm'
    obtain ⟨p, hpmem, hp2⟩ := List.mem_map.mp hm'
    have hpf := List.mem_filter.mp hpmem
    have hget : u[p.1]? = some p.2 := List.mem_enum_iff_getElem?.mp hpf.1
    have hip : p.1 < u.length := by
      rcases List.getElem?_eq_some_iff.mp hget with ⟨hlt, -⟩
      exact hlt
    have hiq : p.1 < q.length := by rw [← hlen]; exact hip
    have hqget : q[p.1]? = some q[p.1] := List.getElem?_eq_getElem hiq
    refine ⟨q[p.1], List.getElem?_mem hqget, ?_⟩
    rw [← hp2]
    exact hrel p.1 q[p.1] p.2 hqget hget

/-- The attempt-limit bound is preserved by any sequence of `send` calls
and transmit phases. -/
theorem runOps_bound (limit : Int) :
    ∀ (ops : List QOp) (q0 : List OutItem) (evs0 : List Event)
      (q : List OutItem) (evs : List Event),
      runOps limit ops q0 evs0 = .ok (q, evs) →
      (∀ m ∈ q0, 0 < limit → m.tx_attempts ≤ limit) →
      ∀ m ∈ q, 0 < limit → m.tx_attempts ≤ limit
  | [], q0, evs0, q, evs, h, hinv => by
    rw [runOps] at h
    have hq : q0 = q := congrArg Prod.fst (Except.ok.inj h)
    subst hq
    exact hinv
  | .send d c cb :: rest, q0, evs0, q, evs, h, hinv => by
    rw [runOps] at h
    refine runOps_bound limit rest _ _ _ _ h ?_
    intro m hm hl
    rcases List.mem_append.mp hm with hm | hm
    · exact hinv m hm hl
    · rcases List.mem_singleton.mp hm with rfl
      simp [sendMessage]
      omega
  | .phase results :: rest, q0, evs0, q, evs, h, hinv => by
    rw [runOps] at h
    split at h
    · cases h
    case h_2 q1 evs1 heq =>
      refine runOps_bound limit rest _ _ _ _ h ?_
      intro m hm hl
      obtain ⟨m0, hm0, hrel⟩ := deliverTransmitResults_rel limit q0 results q1 evs1 heq m hm
      exact hrel.2.2.2.2 hl (hinv m0 hm0 hl)

/-- Claim C8 — Across any sequence of `send()` calls and transmit phases
(started from an empty queue), every outbound item's `tx_attempts` stays
at most `tx_attempt_limit` whenever that limit is positive; and within any
single transmit phase, every surviving item descends from a queue item of
the same identity with a `tx_attempts` that did not decrease. -/
theorem tx_attempts_monotone_and_bounded :
    (∀ (limit : Int) (ops : List QOp) (q : List OutItem) (evs : List Event),
      runOps limit ops [] [] = .ok (q, evs) → 0 < limit →
      ∀ m ∈ q, m.tx_attempts ≤ limit) ∧
    (∀ (limit : Int) (q : List OutItem) (results : List TxResult)
      (q' : List OutItem) (evs : List Event),
      deliverTransmitResults limit q results = .ok (q', evs) →
      ∀ m' ∈ q', ∃ m ∈ q, m.dest = m'.dest ∧ m.content = m'.content ∧
        m.has_callback = m'.has_callback ∧ m.tx_attempts ≤ m'.tx_attempts ∧
        (0 < limit → m.tx_attempts ≤ limit → m'.tx_attempts ≤ limit)) := by
  constructor
  · intro limit ops q evs h hl m hm
    refine runOps_bound limit ops [] [] q evs h ?_ m hm hl
    intro m hm
    simp at hm
  · intro limit q results q' evs h m' hm'
    obtain ⟨m, hm, hrel⟩ := deliverTransmitResults_rel limit q results q' evs h m' hm'
    exact ⟨m, hm, hrel.1, hrel.2.1, hrel.2.2.1, hrel.2.2.2.1, hrel.2.2.2.2⟩

/-- Witness for C8: a `send` followed by three failing transmit phases at
limit 2 leaves the queue holding the item with `tx_attempts = 2 ≤ 2`. -/
theorem tx_attempts_monotone_and_bounded_witness :
    runOps 2 [.send "+1" "x" true, .phase [⟨1, "failure"⟩],
        .phase [⟨1, "failure"⟩], .phase [⟨1, "failure"⟩]] [] []
      = .ok ([itemC2'], [.callbackError itemC2', .transmitErrorEvent itemC2',
          .callbackError itemC2', .transmitErrorEvent itemC2']) ∧
    (0 : Int) < 2 ∧ itemC2'.tx_attempts ≤ 2 :=
  ⟨rfl, by decide,
    tx_attempts_monotone_and_bounded.1 2
      [.send "+1" "x" true, .phase [⟨1, "failure"⟩], .phase [⟨1, "failure"⟩],
        .phase [⟨1, "failure"⟩]]
      [itemC2'] [.callbackError itemC2', .transmitErrorEvent itemC2',
        .callbackError itemC2', .transmitErrorEvent itemC2'] rfl (by decide)
      itemC2' (by simp)⟩



/-- Reading an updated object: the written key returns the new value,
other keys are unaffected. -/
theorem jget_jset {α : Type} (idx : JIdx α) (k k' : String) (v : α) :
    jget (jset idx k v) k' = if k' = k then some v else jget idx k' := by
  induction idx with
  | nil =>
    by_cases h : k' = k
    · simp [jget, jset, h]
    · simp [jget, jset, h, Ne.symm h]
  | cons p rest ih =>
    by_cases hp : p.1 = k
    · by_cases h : k' = k
      · simp [jget, jset, hp, h]
      · have hkk : ¬ k = k' := fun hh => h hh.symm
        simp [jget, jset, hp, h, hkk]
    · by_cases h : k' = p.1
      · have hk'k : ¬ k' = k := fun hh => hp (h.symm.trans hh)
        simp [jget, jset, hp, h.symm, hk'k]
      · have hpk' : ¬ p.1 = k' := fun hh => h hh.symm
        simp [jget, jset, hp, h, hpk', ih]

/-- Inserting a moment-stamped record preserves the all-moment property
of index values. -/
theorem jset_mom_values (idx : JIdx SMsg) (key : String) (s : SMsg)
    (hs : ∃ t, s.timestamp = JTime.mom t)
    (hidx : ∀ (k : String) (c : SMsg), jget idx k = some c →
      ∃ t, c.timestamp = JTime.mom t) :
    ∀ (k : String) (c : SMsg), jget (jset idx key s) k = some c →
      ∃ t, c.timestamp = JTime.mom t := by
  intro k c hc
  rw [jget_jset] at hc
  split at hc
  · cases hc; exact hs
  · exact hidx k c hc

/-- A valid candidate for slot `k` fills an empty slot. -/
theorem slotStep_hit_none (msg : SMsg) (k : String) (c : SMsg)
    (h : validFor msg c = true ∧ jnumKey c.segment = k) :
    slotStep msg k none c = some c := by
  simp only [slotStep, if_pos h]

/-- A valid candidate for an occupied slot `k` wins unless strictly
older. -/
theorem slotStep_hit_some (msg : SMsg) (k : String) (c e : SMsg)
    (h : validFor msg c = true ∧ jnumKey c.segment = k) :
    slotStep msg k (some e) c = if tsv c < tsv e then some e else some c := by
  simp only [slotStep, if_pos h]

/-- An invalid or off-slot candidate leaves the accumulator unchanged. -/
theorem slotStep_miss (msg : SMsg) (k : String) (cur : Option SMsg) (c : SMsg)
    (h : ¬(validFor msg c = true ∧ jnumKey c.segment = k)) :
    slotStep msg k cur c = cur := by
  simp only [slotStep, if_neg h]

/-- Insertion of a valid candidate into an empty slot. -/
theorem add_valid_none (env : JsEnv) (idx : JIdx SMsg) (msg s : SMsg)
    (hv : validFor msg s = true) (hjget : jget idx (jnumKey s.segment) = none) :
    addToReassemblyIndex env idx msg s = .ok (true, jset idx (jnumKey s.segment) s) := by
  simp only [addToReassemblyIndex, if_pos hv, hjget]

/-- Insertion of a valid, moment-stamped candidate into an occupied slot:
the strictly newer record keeps it. -/
theorem add_valid_some (env : JsEnv) (idx : JIdx SMsg) (msg s e : SMsg)
    (ts te : Int) (hv : validFor msg s = true)
    (hjget : jget idx (jnumKey s.segment) = some e)
    (hts : s.timestamp = JTime.mom ts) (hte : e.timestamp = JTime.mom te) :
    addToReassemblyIndex env idx msg s =
      if ts < te then .ok (true, idx)
      else .ok (true, jset idx (jnumKey s.segment) s) := by
  simp only [addToReassemblyIndex, if_pos hv, hjget, hts, hte, jtIsBefore, jtCoerce]
  by_cases hlt : ts < te
  · simp [hlt]
  · simp [hlt]

/-- The segment loop succeeds on moment-stamped inputs, and per key acts
as the per-slot accumulator `slotStep`; index values stay
moment-stamped. -/
theorem buildFold_char (env : JsEnv) (msg : SMsg) :
    ∀ (L : List SMsg) (idx : JIdx SMsg),
      (∀ c ∈ L, ∃ t, c.timestamp = JTime.mom t) →
      (∀ (k : String) (c : SMsg), jget idx k = some c → ∃ t, c.timestamp = JTime.mom t) →
      ∃ J, buildFold env msg L idx = .ok J ∧
        (∀ (k : String), jget J k = L.foldl (slotStep msg k) (jget idx k)) ∧
        (∀ (k : String) (c : SMsg), jget J k = some c → ∃ t, c.timestamp = JTime.mom t)
  | [], idx, hL, hidx => ⟨idx, rfl, fun _ => rfl, hidx⟩
  | s :: rest, idx, hL, hidx => by
    obtain ⟨ts, hts⟩ : ∃ t, s.timestamp = JTime.mom t := hL s (by simp)
    by_cases hv : validFor msg s
    · cases hjget : jget idx (jnumKey s.segment) with
      | none =>
        obtain ⟨J, hJ, hchar, hmom⟩ := buildFold_char env msg rest
          (jset idx (jnumKey s.segment) s) (fun c hc => hL c (by simp [hc]))
          (jset_mom_values idx _ s ⟨ts, hts⟩ hidx)
        refine ⟨J, ?_, ?_, hmom⟩
        · rw [buildFold, add_valid_none env idx msg s hv hjget]; exact hJ
        · intro k
          rw [hchar k, List.foldl_cons]
          congr 1
          rw [jget_jset]
          by_cases hk : jnumKey s.segment = k
          · rw [if_pos hk.symm, ← hk, hjget,
              slotStep_hit_none msg (jnumKey s.segment) s ⟨hv, rfl⟩]
          · rw [if_neg (fun hh => hk hh.symm),
              slotStep_miss msg k _ s (fun hc => hk hc.2)]
      | some e =>
        obtain ⟨te, hte⟩ := hidx (jnumKey s.segment) e hjget
        have hadd := add_valid_some env idx msg s e ts te hv hjget hts hte
        by_cases hlt : ts < te
        · rw [if_pos hlt] at hadd
          obtain ⟨J, hJ, hchar, hmom⟩ := buildFold_char env msg rest idx
            (fun c hc => hL c (by simp [hc])) hidx
          refine ⟨J, ?_, ?_, hmom⟩
          · rw [buildFold, hadd]; exact hJ
          · intro k
            rw [hchar k, List.foldl_cons]
            congr 1
            by_cases hk : jnumKey s.segment = k
            · rw [← hk, hjget, slotStep_hit_some msg _ s e ⟨hv, rfl⟩]
              have htsv : tsv s < tsv e := by simp [tsv, hts, hte, hlt]
              rw [if_pos htsv]
            · rw [slotStep_miss msg k _ s (fun hc => hk hc.2)]
        · rw [if_neg hlt] at hadd
          obtain ⟨J, hJ, hchar, hmom⟩ := buildFold_char env msg rest
            (jset idx (jnumKey s.segment) s) (fun c hc => hL c (by simp [hc]))
            (jset_mom_values idx _ s ⟨ts, hts⟩ hidx)
          refine ⟨J, ?_, ?_, hmom⟩
          · rw [buildFold, hadd]; exact hJ
          · intro k
            rw [hchar k, List.foldl_cons]
            congr 1
            rw [jget_jset]
            by_cases hk : jnumKey s.segment = k
            · rw [if_pos hk.symm, ← hk, hjget, slotStep_hit_some msg _ s e ⟨hv, rfl⟩]
              have htsv : ¬ tsv s < tsv e := by simp [tsv, hts, hte, hlt]
              rw [if_neg htsv]
            · rw [if_neg (fun hh => hk hh.symm),
                slotStep_miss msg k _ s (fun hc => hk hc.2)]
    · have hadd : addToReassemblyIndex env idx msg s = .ok (false, idx) := by
        simp only [addToReassemblyIndex, if_neg hv]
      obtain ⟨J, hJ, hchar, hmom⟩ := buildFold_char env msg rest idx
        (fun c hc => hL c (by simp [hc])) hidx
      refine ⟨J, ?_, ?_, hmom⟩
      · rw [buildFold, hadd]; exact hJ
      · intro k
        rw [hchar k, List.foldl_cons]
        congr 1
        rw [slotStep_miss msg k _ s (fun hc => hv hc.1)]



/-- A filled per-slot fold result is (the accumulator or) a valid listed
candidate for the slot, and its timestamp bounds every competitor. -/
theorem slotFold_some (msg : SMsg) (k : String) :
    ∀ (L : List SMsg) (acc : Option SMsg) (c : SMsg),
      L.foldl (slotStep msg k) acc = some c →
      (acc = some c ∨ (c ∈ L ∧ validFor msg c = true ∧ jnumKey c.segment = k)) ∧
      (∀ d ∈ L, validFor msg d = true → jnumKey d.segment = k → tsv d ≤ tsv c) ∧
      (∀ e, acc = some e → tsv e ≤ tsv c)
  | [], acc, c, h => by
    refine ⟨Or.inl h, by simp, fun e he => ?_⟩
    rw [he] at h
    cases h
    exact le_refl _
  | d :: rest, acc, c, h => by
    rw [List.foldl_cons] at h
    obtain ⟨hmem, hall, hacc⟩ := slotFold_some msg k rest (slotStep msg k acc d) c h
    by_cases hd : validFor msg d = true ∧ jnumKey d.segment = k
    · cases hae : acc with
      | none =>
        subst hae
        rw [slotStep_hit_none msg k d hd] at hmem hacc
        have hdc : tsv d ≤ tsv c := hacc d rfl
        refine ⟨?_, ?_, ?_⟩
        · rcases hmem with hm | ⟨hm, hvc, hkc⟩
          · cases hm
            exact Or.inr ⟨by simp, hd.1, hd.2⟩
          · exact Or.inr ⟨by simp [hm], hvc, hkc⟩
        · intro d' hd' hv' hk'
          rcases List.mem_cons.mp hd' with rfl | hd'
          · exact hdc
          · exact hall d' hd' hv' hk'
        · intro e he
          cases he
      | some e =>
        subst hae
        rw [slotStep_hit_some msg k d e hd] at hmem hacc
        by_cases hlt : tsv d < tsv e
        · rw [if_pos hlt] at hmem hacc
          have hec : tsv e ≤ tsv c := hacc e rfl
          have hdc : tsv d ≤ tsv c := by omega
          refine ⟨?_, ?_, ?_⟩
          · rcases hmem with hm | ⟨hm, hvc, hkc⟩
            · cases hm
              exact Or.inl rfl
            · exact Or.inr ⟨by simp [hm], hvc, hkc⟩
          · intro d' hd' hv' hk'
            rcases List.mem_cons.mp hd' with rfl | hd'
            · exact hdc
            · exact hall d' hd' hv' hk'
          · intro e' he'
            cases he'
            exact hec
        · rw [if_neg hlt] at hmem hacc
          have hdc : tsv d ≤ tsv c := hacc d rfl
          have hec : tsv e ≤ tsv c := by omega
          refine ⟨?_, ?_, ?_⟩
          · rcases hmem with hm | ⟨hm, hvc, hkc⟩
            · cases hm
              exact Or.inr ⟨by simp, hd.1, hd.2⟩
            · exact Or.inr ⟨by simp [hm], hvc, hkc⟩
          · intro d' hd' hv' hk'
            rcases List.mem_cons.mp hd' with rfl | hd'
            · exact hdc
            · exact hall d' hd' hv' hk'
          · intro e' he'
            cases he'
            exact hec
    · rw [slotStep_miss msg k acc d hd] at hmem hacc
      refine ⟨?_, ?_, hacc⟩
      · rcases hmem with hm | ⟨hm, hvc, hkc⟩
        · exact Or.inl hm
        · exact Or.inr ⟨by simp [hm], hvc, hkc⟩
      · intro d' hd' hv' hk'
        rcases List.mem_cons.mp hd' with rfl | hd'
        · exact absurd ⟨hv', hk'⟩ hd
        · exact hall d' hd' hv' hk'

/-- An empty per-slot fold result means the accumulator was empty and no
listed candidate was valid for the slot. -/
theorem slotFold_none (msg : SMsg) (k : String) :
    ∀ (L : List SMsg) (acc : Option SMsg),
      L.foldl (slotStep msg k) acc = none →
      acc = none ∧ ∀ d ∈ L, ¬(validFor msg d = true ∧ jnumKey d.segment = k)
  | [], acc, h => ⟨h, by simp⟩
  | d :: rest, acc, h => by
    rw [List.foldl_cons] at h
    obtain ⟨hacc, hrest⟩ := slotFold_none msg k rest _ h
    by_cases hd : validFor msg d = true ∧ jnumKey d.segment = k
    · exfalso
      cases hae : acc with
      | none => rw [hae, slotStep_hit_none msg k d hd] at hacc; cases hacc
      | some e =>
        rw [hae, slotStep_hit_some msg k d e hd] at hacc
        by_cases hlt : tsv d < tsv e
        · rw [if_pos hlt] at hacc; cases hacc
        · rw [if_neg hlt] at hacc; cases hacc
    · rw [slotStep_miss msg k acc d hd] at hacc
      refine ⟨hacc, fun d' hd' => ?_⟩
      rcases List.mem_cons.mp hd' with rfl | hd'
      · exact hd
      · exact hrest d' hd'



/-- With pairwise-distinct timestamps per slot, the per-slot fold is
invariant under permutation of the candidate list. -/
theorem slotFold_perm (msg : SMsg) (k : String) (L1 L2 : List SMsg)
    (hperm : L1.Perm L2)
    (hdist : ∀ a ∈ L1, ∀ b ∈ L1, validFor msg a = true → validFor msg b = true →
      jnumKey a.segment = jnumKey b.segment → tsv a = tsv b → a = b) :
    L1.foldl (slotStep msg k) none = L2.foldl (slotStep msg k) none := by
  cases h1 : L1.foldl (slotStep msg k) none with
  | none =>
    cases h2 : L2.foldl (slotStep msg k) none with
    | none => rfl
    | some c2 =>
      obtain ⟨hmem, -, -⟩ := slotFold_some msg k L2 none c2 h2
      rcases hmem with h | ⟨hmem, hval, hk⟩
      · cases h
      · obtain ⟨-, hnone⟩ := slotFold_none msg k L1 none h1
        exact absurd ⟨hval, hk⟩ (hnone c2 (hperm.mem_iff.mpr hmem))
  | some c1 =>
    cases h2 : L2.foldl (slotStep msg k) none with
    | none =>
      obtain ⟨hmem, -, -⟩ := slotFold_some msg k L1 none c1 h1
      rcases hmem with h | ⟨hmem, hval, hk⟩
      · cases h
      · obtain ⟨-, hnone⟩ := slotFold_none msg k L2 none h2
        exact absurd ⟨hval, hk⟩ (hnone c1 (hperm.mem_iff.mp hmem))
    | some c2 =>
      obtain ⟨hmem1, hall1, -⟩ := slotFold_some msg k L1 none c1 h1
      obtain ⟨hmem2, hall2, -⟩ := slotFold_some msg k L2 none c2 h2
      rcases hmem1 with h | ⟨hm1, hv1, hk1⟩
      · cases h
      rcases hmem2 with h | ⟨hm2, hv2, hk2⟩
      · cases h
      have hm2' : c2 ∈ L1 := hperm.mem_iff.mpr hm2
      have h12 : tsv c2 ≤ tsv c1 := hall1 c2 hm2' hv2 hk2
      have h21 : tsv c1 ≤ tsv c2 := hall2 c1 (hperm.mem_iff.mp hm1) hv1 hk1
      rw [hdist c1 hm1 c2 hm2' hv1 hv2 (hk1.trans hk2.symm) (le_antisymm h21 h12)]

/-- The segment loop splits over list append. -/
theorem buildFold_append (env : JsEnv) (msg : SMsg) :
    ∀ (L1 L2 : List SMsg) (idx : JIdx SMsg),
      buildFold env msg (L1 ++ L2) idx =
        match buildFold env msg L1 idx with
        | .error e => .error e
        | .ok J => buildFold env msg L2 J
  | [], L2, idx => by rw [List.nil_append, buildFold]
  | s :: rest, L2, idx => by
    cases hadd : addToReassemblyIndex env idx msg s with
    | error e => simp only [List.cons_append, buildFold, hadd]
    | ok p =>
      obtain ⟨b, idx'⟩ := p
      simp only [List.cons_append, buildFold, hadd]
      exact buildFold_append env msg rest L2 idx'

/-- `_build_reassembly_index` equals one segment loop over the peers
followed by the trigger. -/
theorem build_eq_buildFold (env : JsEnv) (msg : SMsg) (L : List SMsg) :
    buildReassemblyIndex env msg L = buildFold env msg (L ++ [msg]) [] := by
  rw [buildReassemblyIndex, buildFold_append env msg L [msg] []]
  cases buildFold env msg L [] with
  | error e => rfl
  | ok J => simp only [buildFold]

/-- On moment-stamped inputs the reassembly index build succeeds and each
key holds the per-slot fold over peers-then-trigger. -/
theorem build_char (env : JsEnv) (msg : SMsg) (L : List SMsg)
    (hm : ∃ t, msg.timestamp = JTime.mom t)
    (hL : ∀ c ∈ L, ∃ t, c.timestamp = JTime.mom t) :
    ∃ J, buildReassemblyIndex env msg L = .ok J ∧
      ∀ (k : String), jget J k = (L ++ [msg]).foldl (slotStep msg k) none := by
  have hL' : ∀ c ∈ L ++ [msg], ∃ t, c.timestamp = JTime.mom t := by
    intro c hc
    rcases List.mem_append.mp hc with hc | hc
    · exact hL c hc
    · rcases List.mem_singleton.mp hc with rfl
      exact hm
  obtain ⟨J, hJ, hchar, -⟩ := buildFold_char env msg (L ++ [msg]) []
    hL' (by intro k c hc; cases hc)
  exact ⟨J, by rw [build_eq_buildFold]; exact hJ, fun k => hchar k⟩

/-- The materialization loop depends on the index only through `jget`. -/
theorem createRange_congr (env : JsEnv) (J1 J2 : JIdx SMsg)
    (hJ : ∀ (k : String), jget J1 k = jget J2 k) :
    ∀ (fuel : Nat) (i : Int) (rv : QMsg),
      createRange env J1 fuel i rv = createRange env J2 fuel i rv
  | 0, i, rv => rfl
  | fuel + 1, i, rv => by
    rw [createRange, createRange, createStep, createStep, ← hJ (toString i)]
    cases jget J1 (toString i) with
    | none => rfl
    | some seg =>
      simp only []
      cases updTime env rv.core.timestamp seg.timestamp with
      | error e => rfl
      | ok ts =>
        cases updTime env rv.core.smsc_timestamp seg.smsc_timestamp with
        | error e => rfl
        | ok sts => exact createRange_congr env J1 J2 hJ fuel (i + 1) _

/-- Materialization depends on the index only through `jget`. -/
theorem createMessage_congr (env : JsEnv) (J1 J2 : JIdx SMsg)
    (hJ : ∀ (k : String), jget J1 k = jget J2 k) :
    createMessageFromReassemblyIndex env J1 = createMessageFromReassemblyIndex env J2 := by
  rw [createMessageFromReassemblyIndex, createMessageFromReassemblyIndex, ← hJ "1"]
  cases jget J1 "1" with
  | none => rfl
  | some first => exact createRange_congr env J1 J2 hJ _ 2 _



/-- Claim C6 — For moment-stamped segments with pairwise-distinct
timestamps per slot (up to equal records), the reassembly index — and
hence the materialized composite — is invariant under permutation of the
presented segments; a strictly older candidate for an occupied slot
leaves the index unchanged; and the trigger, inserted last, wins its slot
against every candidate with an equal-or-older timestamp (exact-tie
included). -/
theorem reassembly_composite_order_insensitive :
    (∀ (env : JsEnv) (msg : SMsg) (L1 L2 : List SMsg),
      (∃ t, msg.timestamp = JTime.mom t) →
      (∀ c ∈ L1, ∃ t, c.timestamp = JTime.mom t) →
      L1.Perm L2 →
      (∀ a ∈ L1, ∀ b ∈ L1, validFor msg a = true → validFor msg b = true →
        jnumKey a.segment = jnumKey b.segment → tsv a = tsv b → a = b) →
      ∃ J1 J2, buildReassemblyIndex env msg L1 = .ok J1 ∧
        buildReassemblyIndex env msg L2 = .ok J2 ∧
        (∀ (k : String), jget J1 k = jget J2 k) ∧
        createMessageFromReassemblyIndex env J1
          = createMessageFromReassemblyIndex env J2) ∧
    (∀ (env : JsEnv) (idx : JIdx SMsg) (msg m e : SMsg),
      validFor msg m = true →
      jget idx (jnumKey m.segment) = some e →
      jtIsBefore env m.timestamp e.timestamp = .ok true →
      addToReassemblyIndex env idx msg m = .ok (true, idx)) ∧
    (∀ (env : JsEnv) (msg : SMsg) (L : List SMsg) (J : JIdx SMsg),
      (∃ t, msg.timestamp = JTime.mom t) →
      (∀ c ∈ L, ∃ t, c.timestamp = JTime.mom t) →
      validFor msg msg = true →
      (∀ c ∈ L, validFor msg c = true → jnumKey c.segment = jnumKey msg.segment →
        tsv c ≤ tsv msg) →
      buildReassemblyIndex env msg L = .ok J →
      jget J (jnumKey msg.segment) = some msg) := by
  refine ⟨?_, ?_, ?_⟩
  · intro env msg L1 L2 hm hL1 hperm hdist
    have hL2 : ∀ c ∈ L2, ∃ t, c.timestamp = JTime.mom t :=
      fun c hc => hL1 c (hperm.mem_iff.mpr hc)
    obtain ⟨J1, hJ1, hchar1⟩ := build_char env msg L1 hm hL1
    obtain ⟨J2, hJ2, hchar2⟩ := build_char env msg L2 hm hL2
    have hjk : ∀ (k : String), jget J1 k = jget J2 k := by
      intro k
      rw [hchar1 k, hchar2 k, List.foldl_append, List.foldl_append]
      rw [slotFold_perm msg k L1 L2 hperm hdist]
    exact ⟨J1, J2, hJ1, hJ2, hjk, createMessage_congr env J1 J2 hjk⟩
  · intro env idx msg m e hv hjget hb
    simp only [addToReassemblyIndex, if_pos hv, hjget, hb]
    simp
  · intro env msg L J hm hL hvm hmax hJ
    obtain ⟨J', hJ', hchar⟩ := build_char env msg L hm hL
    rw [hJ'] at hJ
    cases hJ
    rw [hchar (jnumKey msg.segment), List.foldl_append]
    cases hfold : L.foldl (slotStep msg (jnumKey msg.segment)) none with
    | none =>
      rw [List.foldl_cons, List.foldl_nil,
        slotStep_hit_none msg (jnumKey msg.segment) msg ⟨hvm, rfl⟩]
    | some e =>
      obtain ⟨hmem, -, -⟩ := slotFold_some msg (jnumKey msg.segment) L none e hfold
      rcases hmem with h | ⟨hmem, hval, hk⟩
      · cases h
      · have hle : tsv e ≤ tsv msg := hmax e hmem hval hk
        rw [List.foldl_cons, List.foldl_nil,
          slotStep_hit_some msg (jnumKey msg.segment) msg e ⟨hvm, rfl⟩,
          if_neg (by omega)]


/-- Witness for C6 (the duplicate-handling clause): a strictly older
duplicate of segment 1 leaves the occupied slot unchanged. -/
theorem reassembly_composite_order_insensitive_witness :
    validFor trigC5 dupOld = true ∧
    jtIsBefore env0 dupOld.timestamp dupNew.timestamp = .ok true ∧
    addToReassemblyIndex env0 [("1", dupNew)] trigC5 dupOld
      = .ok (true, [("1", dupNew)]) :=
  ⟨by decide, rfl,
    reassembly_composite_order_insensitive.2.1 env0 [("1", dupNew)] trigC5
      dupOld dupNew (by decide) rfl rfl⟩



/-- Every record in the index after an insertion was already there or is
the inserted candidate. -/
theorem add_origin (env : JsEnv) (idx : JIdx SMsg) (msg m : SMsg)
    (b : Bool) (idx' : JIdx SMsg)
    (h : addToReassemblyIndex env idx msg m = .ok (b, idx')) :
    ∀ (k : String) (c : SMsg), jget idx' k = some c →
      jget idx k = some c ∨ c = m := by
  intro k c hc
  by_cases hv : validFor msg m
  · cases hjget : jget idx (jnumKey m.segment) with
    | none =>
      rw [add_valid_none env idx msg m hv hjget] at h
      have hidx : jset idx (jnumKey m.segment) m = idx' :=
        congrArg Prod.snd (Except.ok.inj h)
      rw [← hidx, jget_jset] at hc
      split at hc
      · exact Or.inr (Option.some.inj hc).symm
      · exact Or.inl hc
    | some e =>
      cases hb : jtIsBefore env m.timestamp e.timestamp with
      | error er =>
        simp only [addToReassemblyIndex, if_pos hv, hjget, hb] at h
        cases h
      | ok bb =>
        cases bb with
        | true =>
          have : addToReassemblyIndex env idx msg m = .ok (true, idx) := by
            simp only [addToReassemblyIndex, if_pos hv, hjget, hb, if_pos]
          rw [this] at h
          have hidx : idx = idx' := congrArg Prod.snd (Except.ok.inj h)
          rw [← hidx] at hc
          exact Or.inl hc
        | false =>
          have : addToReassemblyIndex env idx msg m
              = .ok (true, jset idx (jnumKey m.segment) m) := by
            simp only [addToReassemblyIndex, if_pos hv, hjget, hb]
            simp
          rw [this] at h
          have hidx : jset idx (jnumKey m.segment) m = idx' :=
            congrArg Prod.snd (Except.ok.inj h)
          rw [← hidx, jget_jset] at hc
          split at hc
          · exact Or.inr (Option.some.inj hc).symm
          · exact Or.inl hc
  · have : addToReassemblyIndex env idx msg m = .ok (false, idx) := by
      simp only [addToReassemblyIndex, if_neg hv]
    rw [this] at h
    have hidx : idx = idx' := congrArg Prod.snd (Except.ok.inj h)
    rw [← hidx] at hc
    exact Or.inl hc

/-- Every record in the index after the segment loop came from the
starting index or the inserted list. -/
theorem buildFold_origin (env : JsEnv) (msg : SMsg) :
    ∀ (L : List SMsg) (idx : JIdx SMsg) (J : JIdx SMsg),
      buildFold env msg L idx = .ok J →
      ∀ (k : String) (c : SMsg), jget J k = some c →
        jget idx k = some c ∨ c ∈ L
  | [], idx, J, h, k, c, hc => by
    rw [buildFold] at h
    have := Except.ok.inj h
    subst this
    exact Or.inl hc
  | s :: rest, idx, J, h, k, c, hc => by
    rw [buildFold] at h
    cases hadd : addToReassemblyIndex env idx msg s with
    | error e => rw [hadd] at h; cases h
    | ok p =>
      obtain ⟨b, idx1⟩ := p
      rw [hadd] at h
      rcases buildFold_origin env msg rest idx1 J h k c hc with h' | h'
      · rcases add_origin env idx msg s b idx1 hadd k c h' with h'' | rfl
        · exact Or.inl h''
        · exact Or.inr (by simp)
      · exact Or.inr (by simp [h'])

/-- Every record in a built reassembly index is a peer segment or the
trigger. -/
theorem build_origin (env : JsEnv) (msg : SMsg) (L : List SMsg) (J : JIdx SMsg)
    (h : buildReassemblyIndex env msg L = .ok J) :
    ∀ (k : String) (c : SMsg), jget J k = some c → c ∈ L ∨ c = msg := by
  rw [build_eq_buildFold] at h
  intro k c hc
  rcases buildFold_origin env msg (L ++ [msg]) [] J h k c hc with h' | h'
  · exact absurd h' (by simp [jget])
  · rcases List.mem_append.mp h' with h'' | h''
    · exact Or.inl h''
    · exact Or.inr (List.mem_singleton.mp h'')



/-- Through the materialization loop, the composite location list stays
exactly the locations of its parts, and every part comes from the index
(or the seed). -/
theorem createRange_shape (env : JsEnv) (J : JIdx SMsg) (P : SMsg → Prop)
    (hJ : ∀ (k : String) (c : SMsg), jget J k = some c → P c) :
    ∀ (fuel : Nat) (i : Int) (rv : QMsg) (q : QMsg),
      createRange env J fuel i rv = .ok q →
      rv.core.location = .arr (rv.parts.map (·.location)) →
      (∀ p ∈ rv.parts, P p) →
      q.core.location = .arr (q.parts.map (·.location)) ∧ ∀ p ∈ q.parts, P p
  | 0, i, rv, q, h, hloc, hp => by
    rw [createRange] at h
    have := Except.ok.inj h
    subst this
    exact ⟨hloc, hp⟩
  | fuel + 1, i, rv, q, h, hloc, hp => by
    rw [createRange, createStep] at h
    cases hg : jget J (toString i) with
    | none => rw [hg] at h; cases h
    | some seg =>
      rw [hg] at h
      simp only [] at h
      cases h1 : updTime env rv.core.timestamp seg.timestamp with
      | error e => rw [h1] at h; cases h
      | ok ts =>
        rw [h1] at h
        cases h2 : updTime env rv.core.smsc_timestamp seg.smsc_timestamp with
        | error e => rw [h2] at h; cases h
        | ok sts =>
          rw [h2] at h
          refine createRange_shape env J P hJ fuel (i + 1) _ q h ?_ ?_
          · simp only []
            rw [hloc, locPush]
            simp
          · intro p hp'
            rcases List.mem_append.mp hp' with hp' | hp'
            · exact hp p hp'
            · rcases List.mem_singleton.mp hp' with rfl
              exact hJ (toString i) p hg

/-- The location list of a materialized composite is exactly the
locations of its parts, and every part is an index record. -/
theorem createMessage_shape (env : JsEnv) (J : JIdx SMsg) (P : SMsg → Prop)
    (hJ : ∀ (k : String) (c : SMsg), jget J k = some c → P c)
    (q : QMsg) (h : createMessageFromReassemblyIndex env J = .ok q) :
    q.core.location = .arr (q.parts.map (·.location)) ∧ ∀ p ∈ q.parts, P p := by
  rw [createMessageFromReassemblyIndex] at h
  cases hg : jget J "1" with
  | none => rw [hg] at h; cases h
  | some first =>
    rw [hg] at h
    simp only [] at h
    refine createRange_shape env J P hJ _ 2 _ q h ?_ ?_
    · simp
    · intro p hp
      rcases List.mem_singleton.mp hp with rfl
      exact hJ "1" p hg



/-- The transform never touches `location`. -/
theorem transform_location (env : JsEnv) (m : SMsg) :
    (transformReceivedMessage env m).location = m.location := by
  rw [transformReceivedMessage]
  split <;> split <;> rfl

/-- Inversion: with the default segment store, a successful reassembly
went through the cache, a built index, and materialization. -/
theorem tryToReassemble_some_inv (env : JsEnv) (emb : Emb) (st : PollSt)
    (m : SMsg) (comp : QMsg) (h2 : emb.has_return_segments = false)
    (h : tryToReassembleMessage env emb st m = .ok (some comp)) :
    ∃ segs idx, jget st.segment_cache (idKey m.id) = some segs ∧
      buildReassemblyIndex env m segs = .ok idx ∧
      createMessageFromReassemblyIndex env idx = .ok comp := by
  rw [tryToReassembleMessage, requestReturnSegments, h2] at h
  simp only [Bool.false_eq_true, if_false] at h
  cases hg : jget st.segment_cache (idKey m.id) with
  | none => rw [hg] at h; cases h
  | some segs =>
    rw [hg] at h
    simp only [] at h
    cases hb : buildReassemblyIndex env m segs with
    | error e => rw [hb] at h; cases h
    | ok idx =>
      rw [hb] at h
      simp only [] at h
      split at h
      · cases hc : createMessageFromReassemblyIndex env idx with
        | error e => rw [hc] at h; cases h
        | ok q =>
          rw [hc] at h
          have hq : q = comp := by
            have := Except.ok.inj h
            exact Option.some.inj this
          subst hq
          exact ⟨segs, idx, rfl, hb, hc⟩
      · cases h



/-- One record of the receive loop, under the default segment store,
preserves numeric locations in the cache and resolvable locations in the
inbound queue. -/
theorem processStep_inv (env : JsEnv) (emb : Emb)
    (h1 : emb.has_receive_segment = false) (h2 : emb.has_return_segments = false)
    (st : PollSt) (reasmIdx : JIdx QMsg) (evs : List Event) (m0 : SMsg)
    (hm : ∃ n, m0.location = JLoc.num n)
    (hcache : ∀ (k : String) (l : List SMsg), jget st.segment_cache k = some l →
      ∀ s ∈ l, ∃ n, s.location = JLoc.num n)
    (hqueue : ∀ q ∈ st.inbound_queue, locationCovers q) :
    (∀ (k : String) (l : List SMsg),
      jget (processReceivedMessage env emb (st, reasmIdx, evs) m0).1.segment_cache k
        = some l → ∀ s ∈ l, ∃ n, s.location = JLoc.num n) ∧
    (∀ q ∈ (processReceivedMessage env emb (st, reasmIdx, evs) m0).1.inbound_queue,
      locationCovers q) := by
  obtain ⟨n0, hn0⟩ := hm
  have hmloc : (transformReceivedMessage env m0).location = JLoc.num n0 := by
    rw [transform_location, hn0]
  rw [processReceivedMessage]
  simp only []
  split
  · refine ⟨hcache, ?_⟩
    intro q hq
    rcases List.mem_append.mp hq with hq | hq
    · exact hqueue q hq
    · rcases List.mem_singleton.mp hq with rfl
      exact Or.inl ⟨⟨n0, hmloc⟩, rfl⟩
  · rw [notifyReceiveSegment, h1]
    simp only [Bool.false_eq_true, if_false]
    set m := transformReceivedMessage env m0 with hmdef
    set cache1 := jset st.segment_cache (idKey m.id)
      ((jget st.segment_cache (idKey m.id)).getD [] ++ [m]) with hc1
    have hcache1 : ∀ (k : String) (l : List SMsg), jget cache1 k = some l →
        ∀ s ∈ l, ∃ n, s.location = JLoc.num n := by
      intro k l hl s hs
      rw [hc1, jget_jset] at hl
      split at hl
      · cases hl
        rcases List.mem_append.mp hs with hs | hs
        · cases hjp : jget st.segment_cache (idKey m.id) with
          | none => rw [hjp] at hs; cases hs
          | some l0 =>
            rw [hjp] at hs
            exact hcache (idKey m.id) l0 hjp s hs
        · rcases List.mem_singleton.mp hs with rfl
          exact ⟨n0, hmloc⟩
      · exact hcache k l hl s hs
    split
    · exact ⟨hcache1, hqueue⟩
    · cases htr : tryToReassembleMessage env emb
          { st with segment_cache := cache1 } m with
      | error e => exact ⟨hcache1, hqueue⟩
      | ok o =>
        cases o with
        | none => exact ⟨hcache1, hqueue⟩
        | some comp =>
          refine ⟨hcache1, ?_⟩
          intro q hq
          rcases List.mem_append.mp hq with hq | hq
          · exact hqueue q hq
          · rcases List.mem_singleton.mp hq with rfl
            obtain ⟨segs, idx, hg, hb, hc⟩ :=
              tryToReassemble_some_inv env emb { st with segment_cache := cache1 }
                m q h2 htr
            have hsegs : ∀ s ∈ segs, ∃ n, s.location = JLoc.num n :=
              hcache1 (idKey m.id) segs hg
            have hidx : ∀ (k : String) (c : SMsg), jget idx k = some c →
                ∃ n, c.location = JLoc.num n := by
              intro k c hkc
              rcases build_origin env m segs idx hb k c hkc with h' | rfl
              · exact hsegs c h'
              · exact ⟨n0, hmloc⟩
            obtain ⟨hloc, hp⟩ := createMessage_shape env idx
              (fun c => ∃ n, c.location = JLoc.num n) hidx q hc
            exact Or.inr ⟨hloc, hp⟩



/-- The receive loop, under the default segment store, keeps the
locations of every queued message resolvable. -/
theorem processFold_inv (env : JsEnv) (emb : Emb)
    (h1 : emb.has_receive_segment = false) (h2 : emb.has_return_segments = false) :
    ∀ (rv : List SMsg) (st : PollSt) (reasmIdx : JIdx QMsg) (evs : List Event),
      (∀ m ∈ rv, ∃ n, m.location = JLoc.num n) →
      (∀ (k : String) (l : List SMsg), jget st.segment_cache k = some l →
        ∀ s ∈ l, ∃ n, s.location = JLoc.num n) →
      (∀ q ∈ st.inbound_queue, locationCovers q) →
      ∀ q ∈ (rv.foldl (processReceivedMessage env emb) (st, reasmIdx, evs)).1.inbound_queue,
        locationCovers q
  | [], st, reasmIdx, evs, hrv, hcache, hqueue => hqueue
  | m0 :: rest, st, reasmIdx, evs, hrv, hcache, hqueue => by
    rw [List.foldl_cons]
    obtain ⟨hcache', hqueue'⟩ := processStep_inv env emb h1 h2 st reasmIdx evs m0
      (hrv m0 (by simp)) hcache hqueue
    exact processFold_inv env emb h1 h2 rest _ _ _
      (fun m hm => hrv m (by simp [hm])) hcache' hqueue'

/-- Claim C7, amended — With no `receive_segment`/`return_segments`
handlers registered (the built-in segment store, `should_delete` never
true), every message in `inbound_queue` at any point of the receive
phase carries a resolvable set of numeric locations covering all of its
parts.  (The unamended claim fails when a registered handler persists
segments: see the counterexample.) -/
theorem default_store_inbound_locations_resolvable (env : JsEnv) (emb : Emb) (st : PollSt) (rv : List SMsg)
    (h1 : emb.has_receive_segment = false) (h2 : emb.has_return_segments = false)
    (hrv : ∀ m ∈ rv, ∃ n, m.location = JLoc.num n)
    (hq0 : st.inbound_queue = []) :
    ∀ q ∈ (processAllReceived env emb st rv).1.inbound_queue, locationCovers q := by
  rw [processAllReceived]
  refine processFold_inv env emb h1 h2 rv _ [] [] hrv ?_ ?_
  · intro k l hl
    cases hl
  · intro q hq
    simp only [] at hq
    rw [hq0] at hq
    cases hq

/-- Witness for the amended C7: the composite reassembled from the
two-part scenario under the default store has resolvable locations. -/
theorem default_store_inbound_locations_resolvable_witness :
    locationCovers compC3 := by
  have hmem : compC3 ∈ (processAllReceived env0 embDefault pollSt0 [segA, segB]).1.inbound_queue := by
    rw [show (processAllReceived env0 embDefault pollSt0 [segA, segB]).1.inbound_queue
        = [compC3] from rfl]
    simp
  refine default_store_inbound_locations_resolvable env0 embDefault pollSt0 [segA, segB] rfl rfl ?_ rfl compC3 hmem
  intro m hm
  rcases List.mem_cons.mp hm with rfl | hm
  · exact ⟨10, rfl⟩
  · rcases List.mem_cons.mp hm with rfl | hm
    · exact ⟨11, rfl⟩
    · cases hm


end GammuJson
